import Mathlib

/-!
Shallow embedding of the motion-trajectory smoothing and correction pipeline of
`src/vidstab/VidStab.py` (method `VidStab.stabilize`, lines 90-177), over exact
rational arithmetic.

The pipeline, per the source:
  * lines 95-132 (phase 1 loop): one motion estimate per consecutive frame pair;
    when `cv2.estimateRigidTransform` returns `None`, the delta is `(0,0,0)`
    (lines 117-125); a progress tick fires per iteration when `show_progress`.
  * line 137: `trajectory = np.cumsum(prev_to_cur_transform, axis=0)`.
  * line 142: `trajectory.rolling(window=30, center=False).mean()` — pandas
    trailing rolling mean; with the default `min_periods` (= window) the first
    `window - 1` entries are NaN, modelled here as `none`.
  * line 144: `fillna(method='bfill')` — each NaN entry takes the value of the
    next non-NaN entry after it (trailing NaNs stay NaN).
  * line 147: `self.transforms = np.array(prev_to_cur_transform +
    (smoothed_trajectory - trajectory))` — elementwise; NaN propagates, so an
    undefined smoothed entry yields an undefined transform entry.
  * lines 161-177 (phase 2 loop): each frame is warped by the corresponding
    transform row and written out; warping is an external collaborator and is
    modelled as an abstract function.
-/

namespace VidStab

/-- A per-frame-pair motion estimate `{dx, dy, da}` (translation x, translation
y, rotation), as built on line 128 of the source.  Components are modelled as
exact rationals. -/
structure Delta where
  dx : ℚ
  dy : ℚ
  da : ℚ
deriving DecidableEq, Repr

/-- The zero motion delta, substituted when estimation fails (line 125). -/
def zeroD : Delta := ⟨0, 0, 0⟩

/-- Elementwise addition over the three components. -/
def addD (a b : Delta) : Delta := ⟨a.dx + b.dx, a.dy + b.dy, a.da + b.da⟩

/-- Elementwise subtraction over the three components. -/
def subD (a b : Delta) : Delta := ⟨a.dx - b.dx, a.dy - b.dy, a.da - b.da⟩

/-- Elementwise division by a natural number (used for window means). -/
def divD (a : Delta) (n : ℕ) : Delta := ⟨a.dx / n, a.dy / n, a.da / n⟩

/-- Elementwise sum of a list of deltas. -/
def sumD (l : List Delta) : Delta := l.foldl addD zeroD

/-- Arithmetic mean of a list of deltas (elementwise), as computed by
`pandas.rolling(...).mean()` on each fully populated window. -/
def meanD (l : List Delta) : Delta := divD (sumD l) l.length

/-- Worker for `cumsum`: running sum with an explicit accumulator. -/
def cumsumGo (acc : Delta) : List Delta → List Delta
  | [] => []
  | d :: rest => addD acc d :: cumsumGo (addD acc d) rest

/-- `np.cumsum(prev_to_cur_transform, axis=0)` (source line 137): entry `i` is
the running sum of entries `0..i` of the input, componentwise. -/
def cumsum (ds : List Delta) : List Delta := cumsumGo zeroD ds

/-- `trajectory.rolling(window=w, center=False).mean()` (source line 142, with
`w = 30` there): entry `i` is the mean of entries `i-w+1 .. i` when at least
`w` samples are available (pandas default `min_periods` equals the window),
and NaN — modelled as `none` — otherwise. -/
def rollingMean (w : ℕ) (t : List Delta) : List (Option Delta) :=
  (List.range t.length).map fun i =>
    if w ≤ i + 1 then some (meanD ((t.take (i + 1)).drop (i + 1 - w))) else none

/-- First defined entry of a list of optional values, scanning forward. -/
def firstSome : List (Option α) → Option α
  | [] => none
  | some v :: _ => some v
  | none :: xs => firstSome xs

/-- `fillna(method='bfill')` (source line 144): every undefined entry takes the
value of the first defined entry at or after its position; trailing undefined
entries remain undefined. -/
def bfill : List (Option α) → List (Option α)
  | [] => []
  | x :: xs => firstSome (x :: xs) :: bfill xs

/-- The smoothing applied to a trajectory: trailing rolling mean of window `w`
followed by backward fill (source lines 142-144; the source fixes `w = 30`). -/
def smoothTraj (w : ℕ) (t : List Delta) : List (Option Delta) :=
  bfill (rollingMean w t)

/-- The smoothed trajectory computed by `stabilize` from the motion deltas:
cumulative sum, rolling mean with the hardcoded window 30, backward fill. -/
def smoothedOf (ds : List Delta) : List (Option Delta) :=
  smoothTraj 30 (cumsum ds)

/-- `self.transforms = np.array(prev_to_cur_transform + (smoothed_trajectory -
trajectory))` (source line 147), elementwise over aligned rows; a NaN smoothed
entry makes the whole row NaN (`none`), matching float arithmetic. -/
def transformsOf (ds : List Delta) : List (Option Delta) :=
  List.zipWith (fun (p : Delta × Delta) s => s.map fun sv => addD p.1 (subD sv p.2))
    (ds.zip (cumsum ds)) (smoothedOf ds)

/-- Delta extracted from one motion-estimation outcome (source lines 117-125):
the estimate itself when the estimator returned one, the zero delta when it
returned `None`. -/
def estDelta (r : Option Delta) : Delta := r.getD zeroD

/-- One iteration of the phase-1 loop (source lines 95-132), restricted to its
observable data: append the extracted delta, and tick the progress bar when
`show_progress` is set. -/
def phase1Step (sp : Bool) (acc : List Delta × ℕ) (r : Option Delta) : List Delta × ℕ :=
  (acc.1 ++ [estDelta r], if sp then acc.2 + 1 else acc.2)

/-- The phase-1 loop over all motion-estimation outcomes: the list of motion
deltas in input order, and the number of progress ticks emitted. -/
def phase1 (rs : List (Option Delta)) (sp : Bool) : List Delta × ℕ :=
  rs.foldl (phase1Step sp) ([], 0)

/-- One iteration of the phase-2 rendering loop (source lines 161-177): warp
the frame by its transform row, write it, and tick the progress bar when
`show_progress` is set.  Warping (matrix build + `cv2.warpAffine`) is the
external collaborator `warp`. -/
def phase2Step {Frame : Type} (warp : Frame → Option Delta → Frame) (sp : Bool)
    (acc : List Frame × ℕ) (p : Frame × Option Delta) : List Frame × ℕ :=
  (acc.1 ++ [warp p.1 p.2], if sp then acc.2 + 1 else acc.2)

/-- The phase-2 loop: frames written in order, and progress ticks emitted. -/
def phase2 {Frame : Type} (warp : Frame → Option Delta → Frame)
    (frames : List Frame) (ts : List (Option Delta)) (sp : Bool) : List Frame × ℕ :=
  (frames.zip ts).foldl (phase2Step warp sp) ([], 0)

/-- Observable outcome of one `stabilize` call: the stored transforms, the
frames written to the output video, and the progress ticks emitted. -/
structure RunResult (Frame : Type) where
  transforms : List (Option Delta)
  outFrames : List Frame
  ticks : ℕ
deriving Repr

/-- The whole `stabilize` pipeline (source lines 90-177): phase 1 produces the
deltas, line 147 produces the transforms, phase 2 renders the output. -/
def stabilizeRun {Frame : Type} (warp : Frame → Option Delta → Frame)
    (frames : List Frame) (rs : List (Option Delta)) (sp : Bool) : RunResult Frame :=
  let p1 := phase1 rs sp
  let ts := transformsOf p1.1
  let p2 := phase2 warp frames ts sp
  ⟨ts, p2.1, p1.2 + p2.2⟩

/-- The per-video state kept on a `VidStab` instance: only the `transforms`
attribute (class docstring, source line 57 and line 147). -/
structure VidStabSession where
  transforms : Option (List (Option Delta))
deriving DecidableEq, Repr

/-- `__init__` sets `self.transforms = None` (source line 57). -/
def VidStab_init : VidStabSession := ⟨none⟩

/-- Effect of one `stabilize` call on the session state: line 147 overwrites
`self.transforms` with the freshly computed correction sequence. -/
def stabilizeSession (_st : VidStabSession) (rs : List (Option Delta)) (sp : Bool) :
    VidStabSession :=
  ⟨some (transformsOf (phase1 rs sp).1)⟩

/-- Addition of possibly-undefined deltas, with NaN (`none`) propagation, as
in float arithmetic over the rows of `self.transforms`. -/
def addO : Option Delta → Option Delta → Option Delta
  | some a, some b => some (addD a b)
  | _, _ => none

/-- Running sum of a list of possibly-undefined deltas. -/
def sumO (l : List (Option Delta)) : Option Delta := l.foldl addO (some zeroD)

/-- Worker for `specCumsumCorrection`. -/
def specCumsumCorrectionGo (acc : Option Delta) : List (Option Delta) → List (Option Delta)
  | [] => []
  | d :: rest => addO acc d :: specCumsumCorrectionGo (addO acc d) rest

/-- Formalisation of the specification's "cumulative application of
`CorrectionDelta`" (`cumsum(CorrectionDelta)`): a running sum over the
correction rows with NaN propagation.  The source itself never computes this;
it is stated here only to compare the spec's correction identity against the
pipeline. -/
def specCumsumCorrection (l : List (Option Delta)) : List (Option Delta) :=
  specCumsumCorrectionGo (some zeroD) l

/-! ### Concrete sample inputs used by witnesses and counterexamples -/

/-- Two arbitrary motion deltas. -/
def dsA : List Delta := [⟨1, 2, 3⟩, ⟨4, 5, 6⟩]

/-- A three-entry trajectory. -/
def tB : List Delta := [⟨1, 0, 0⟩, ⟨3, 0, 0⟩, ⟨5, 0, 0⟩]

/-- A single motion delta (shorter than the hardcoded window of 30). -/
def dsOne : List Delta := [⟨1, 0, 0⟩]

/-- A one-entry constant trajectory. -/
def tConst1 : List Delta := [⟨1, 1, 1⟩]

/-- A two-entry constant trajectory. -/
def tConst2 : List Delta := List.replicate 2 ⟨2, 3, 4⟩

/-- Estimator outcomes with a gap at index 1. -/
def rsGap : List (Option Delta) := [some ⟨1, 2, 3⟩, none, some ⟨4, 5, 6⟩]

/-- The delta used at the tail of `dsCex`. -/
def bCex : Delta := ⟨30, 0, 0⟩

/-- Thirty motion deltas: twenty-nine zero deltas followed by one translation
of 30 pixels in x. -/
def dsCex : List Delta := List.replicate 29 zeroD ++ [bCex]

/-! ### Basic algebra of `Delta` -/

theorem addD_zero (a : Delta) : addD a zeroD = a := by
  simp [addD, zeroD]

theorem zero_addD (a : Delta) : addD zeroD a = a := by
  simp [addD, zeroD]

theorem addD_assoc (a b c : Delta) : addD (addD a b) c = addD a (addD b c) := by
  simp [addD]; refine ⟨by ring, by ring, by ring⟩

theorem foldl_addD (l : List Delta) : ∀ a : Delta, l.foldl addD a = addD a (sumD l) := by
  induction l with
  | nil => intro a; simp [sumD, addD_zero]
  | cons d rest ih =>
    intro a
    show rest.foldl addD (addD a d) = addD a (sumD (d :: rest))
    rw [ih (addD a d)]
    show addD (addD a d) (sumD rest) = addD a ((d :: rest).foldl addD zeroD)
    show addD (addD a d) (sumD rest) = addD a (rest.foldl addD (addD zeroD d))
    rw [ih (addD zeroD d), zero_addD, addD_assoc]

theorem sumD_cons (d : Delta) (l : List Delta) : sumD (d :: l) = addD d (sumD l) := by
  show (d :: l).foldl addD zeroD = addD d (sumD l)
  show l.foldl addD (addD zeroD d) = addD d (sumD l)
  rw [foldl_addD, zero_addD]

/-! ### Length lemmas -/

theorem cumsumGo_length (l : List Delta) : ∀ acc, (cumsumGo acc l).length = l.length := by
  induction l with
  | nil => intro acc; rfl
  | cons d rest ih => intro acc; simp [cumsumGo, ih]

theorem cumsum_length (ds : List Delta) : (cumsum ds).length = ds.length :=
  cumsumGo_length ds zeroD

theorem rollingMean_length (w : ℕ) (t : List Delta) :
    (rollingMean w t).length = t.length := by
  simp [rollingMean]

theorem bfill_length (l : List (Option α)) : (bfill l).length = l.length := by
  induction l with
  | nil => rfl
  | cons x xs ih => simp [bfill, ih]

theorem smoothTraj_length (w : ℕ) (t : List Delta) :
    (smoothTraj w t).length = t.length := by
  rw [smoothTraj, bfill_length, rollingMean_length]

theorem smoothedOf_length (ds : List Delta) : (smoothedOf ds).length = ds.length := by
  rw [smoothedOf, smoothTraj_length, cumsum_length]

theorem transformsOf_length (ds : List Delta) : (transformsOf ds).length = ds.length := by
  simp [transformsOf, cumsum_length, smoothedOf_length]

/-! ### Index lemmas for each pipeline stage -/

theorem cumsumGo_get (l : List Delta) :
    ∀ (acc : Delta) (i : ℕ) (h : i < (cumsumGo acc l).length),
      (cumsumGo acc l).get ⟨i, h⟩ = addD acc (sumD (l.take (i + 1))) := by
  induction l with
  | nil => intro acc i h; simp [cumsumGo] at h
  | cons d rest ih =>
    intro acc i h
    cases i with
    | zero => simp [cumsumGo, sumD_cons, sumD, addD_zero, zero_addD]
    | succ j =>
      have hj : j < (cumsumGo (addD acc d) rest).length := by
        simpa [cumsumGo] using h
      show (cumsumGo (addD acc d) rest).get ⟨j, hj⟩ = _
      rw [ih (addD acc d) j hj]
      rw [List.take_succ_cons, sumD_cons, addD_assoc]

theorem cumsum_get (ds : List Delta) (i : ℕ) (h : i < (cumsum ds).length) :
    (cumsum ds).get ⟨i, h⟩ = sumD (ds.take (i + 1)) := by
  have hh : i < (cumsumGo zeroD ds).length := h
  have := cumsumGo_get ds zeroD i hh
  rw [zero_addD] at this
  exact this

theorem rollingMean_get (w : ℕ) (t : List Delta) (i : ℕ)
    (h : i < (rollingMean w t).length) :
    (rollingMean w t).get ⟨i, h⟩ =
      if w ≤ i + 1 then some (meanD ((t.take (i + 1)).drop (i + 1 - w))) else none := by
  simp [rollingMean]

theorem firstSome_cons_some (v : α) (xs : List (Option α)) :
    firstSome (some v :: xs) = some v := rfl

theorem firstSome_cons_none (xs : List (Option α)) :
    firstSome (none :: xs) = firstSome xs := rfl

theorem bfill_get (l : List (Option α)) :
    ∀ (i : ℕ) (h : i < (bfill l).length),
      (bfill l).get ⟨i, h⟩ = firstSome (l.drop i) := by
  induction l with
  | nil => intro i h; simp [bfill] at h
  | cons x xs ih =>
    intro i h
    cases i with
    | zero => simp [bfill]
    | succ j =>
      have hj : j < (bfill xs).length := by simpa [bfill] using h
      show (bfill xs).get ⟨j, hj⟩ = firstSome ((x :: xs).drop (j + 1))
      rw [ih j hj]
      rfl

/-- If entry `j` of `l` is defined and every earlier entry is undefined, then
the forward scan lands on entry `j`. -/
theorem firstSome_eq_of_get (l : List (Option α)) :
    ∀ (j : ℕ) (hj : j < l.length) (v : α),
      l.get ⟨j, hj⟩ = some v →
      (∀ (k : ℕ) (hk : k < l.length), k < j → l.get ⟨k, hk⟩ = none) →
      firstSome l = some v := by
  induction l with
  | nil => intro j hj; simp at hj
  | cons x xs ih =>
    intro j hj v hv hnone
    cases j with
    | zero =>
      have hx : x = some v := hv
      rw [hx]
      rfl
    | succ m =>
      have hx : x = none := hnone 0 (Nat.zero_lt_succ _) (Nat.zero_lt_succ m)
      rw [hx, firstSome_cons_none]
      have hm : m < xs.length := Nat.lt_of_succ_lt_succ hj
      refine ih m hm v hv ?_
      intro k hk hkm
      exact hnone (k + 1) (Nat.succ_lt_succ hk) (Nat.succ_lt_succ hkm)

theorem firstSome_all_none (l : List (Option α)) :
    (∀ (k : ℕ) (hk : k < l.length), l.get ⟨k, hk⟩ = none) → firstSome l = none := by
  induction l with
  | nil => intro _; rfl
  | cons x xs ih =>
    intro h
    have hx : x = none := h 0 (Nat.zero_lt_succ _)
    rw [hx, firstSome_cons_none]
    refine ih ?_
    intro k hk
    exact h (k + 1) (Nat.succ_lt_succ hk)

theorem get_drop (l : List α) (n i : ℕ) (h : i < (l.drop n).length)
    (h2 : n + i < l.length) : (l.drop n).get ⟨i, h⟩ = l.get ⟨n + i, h2⟩ := by
  simp [List.getElem_drop]

/-- Length of the window slice averaged at position `i`: exactly `w` samples
once the window is fully populated. -/
theorem window_slice_length (w : ℕ) (t : List Delta) (i : ℕ)
    (hlen : i < t.length) (hwi : w ≤ i + 1) :
    ((t.take (i + 1)).drop (i + 1 - w)).length = w := by
  simp only [List.length_drop, List.length_take]
  omega

/-- Once the window is fully populated (`w ≤ i + 1`), the smoothed value at
`i` is the mean of the trailing window ending at `i`: the backward fill
(line 144) leaves defined entries untouched. -/
theorem smoothTraj_get_full (w : ℕ) (t : List Delta) (i : ℕ)
    (h : i < (smoothTraj w t).length) (hwi : w ≤ i + 1) :
    (smoothTraj w t).get ⟨i, h⟩ = some (meanD ((t.take (i + 1)).drop (i + 1 - w))) := by
  have hlen : i < t.length := by rwa [smoothTraj_length] at h
  have hR : i < (rollingMean w t).length := by rwa [rollingMean_length]
  have hb : i < (bfill (rollingMean w t)).length := h
  show (bfill (rollingMean w t)).get ⟨i, hb⟩ = _
  rw [bfill_get]
  have hd0 : 0 < ((rollingMean w t).drop i).length := by
    simp only [List.length_drop]
    omega
  refine firstSome_eq_of_get _ 0 hd0 _ ?_ ?_
  · have hi0 : i + 0 < (rollingMean w t).length := by omega
    rw [get_drop _ i 0 hd0 hi0]
    have : (⟨i + 0, hi0⟩ : Fin (rollingMean w t).length) = ⟨i, hR⟩ := by
      congr 1
    rw [this, rollingMean_get]
    simp [hwi]
  · intro k hk hk0
    omega

/-- Before the window is populated (`i < w - 1`, with `w ≤ length`), the
backward fill propagates the first fully-populated mean — the one at index
`w - 1` — to position `i`. -/
theorem smoothTraj_get_early (w : ℕ) (t : List Delta) (hlen : w ≤ t.length) (i : ℕ)
    (h : i < (smoothTraj w t).length) (hw1 : w - 1 < (smoothTraj w t).length)
    (hi : i < w - 1) :
    (smoothTraj w t).get ⟨i, h⟩ = (smoothTraj w t).get ⟨w - 1, hw1⟩ := by
  have hw0 : 0 < w := by omega
  have hR : (rollingMean w t).length = t.length := rollingMean_length w t
  have hb : i < (bfill (rollingMean w t)).length := h
  rw [smoothTraj_get_full w t (w - 1) hw1 (by omega)]
  show (bfill (rollingMean w t)).get ⟨i, hb⟩ = _
  rw [bfill_get]
  have hdlen : ((rollingMean w t).drop i).length = t.length - i := by
    simp [List.length_drop, hR]
  have hj : w - 1 - i < ((rollingMean w t).drop i).length := by omega
  refine firstSome_eq_of_get _ (w - 1 - i) hj _ ?_ ?_
  · have hfull : i + (w - 1 - i) < (rollingMean w t).length := by omega
    rw [get_drop _ i (w - 1 - i) hj hfull]
    have hw1R : w - 1 < (rollingMean w t).length := by omega
    have : (⟨i + (w - 1 - i), hfull⟩ : Fin (rollingMean w t).length) = ⟨w - 1, hw1R⟩ := by
      congr 1
      omega
    rw [this, rollingMean_get]
    have : w ≤ w - 1 + 1 := by omega
    simp [this]
  · intro k hk hklt
    have hik : i + k < (rollingMean w t).length := by omega
    rw [get_drop _ i k hk hik, rollingMean_get]
    have : ¬ w ≤ i + k + 1 := by omega
    simp [this]

/-- When the whole rolling mean is undefined (no index reaches a full window),
the backward fill leaves every entry undefined. -/
theorem smoothTraj_get_none (w : ℕ) (t : List Delta) (hshort : t.length < w) (i : ℕ)
    (h : i < (smoothTraj w t).length) :
    (smoothTraj w t).get ⟨i, h⟩ = none := by
  have hb : i < (bfill (rollingMean w t)).length := h
  show (bfill (rollingMean w t)).get ⟨i, hb⟩ = none
  rw [bfill_get]
  refine firstSome_all_none _ ?_
  intro k hk
  have hk2 : k < (rollingMean w t).length - i := by
    simpa [List.length_drop] using hk
  have hik : i + k < (rollingMean w t).length := by omega
  rw [get_drop _ i k hk hik, rollingMean_get]
  have hikt : i + k < t.length := by rwa [rollingMean_length] at hik
  have : ¬ w ≤ i + k + 1 := by omega
  simp [this]

theorem subD_zero (a : Delta) : subD a zeroD = a := by
  simp [subD, zeroD]

theorem addO_assoc (a b c : Option Delta) : addO (addO a b) c = addO a (addO b c) := by
  cases a <;> cases b <;> cases c <;> simp [addO, addD_assoc]

theorem zero_addO (a : Option Delta) : addO (some zeroD) a = a := by
  cases a <;> simp [addO, zero_addD]

theorem addO_zero (a : Option Delta) : addO a (some zeroD) = a := by
  cases a <;> simp [addO, addD_zero]

theorem foldl_addO (l : List (Option Delta)) :
    ∀ a : Option Delta, l.foldl addO a = addO a (sumO l) := by
  induction l with
  | nil => intro a; simp [sumO, addO_zero]
  | cons d rest ih =>
    intro a
    show rest.foldl addO (addO a d) = addO a (sumO (d :: rest))
    rw [ih (addO a d)]
    show addO (addO a d) (sumO rest) = addO a (rest.foldl addO (addO (some zeroD) d))
    rw [ih (addO (some zeroD) d), zero_addO, addO_assoc]

theorem sumO_cons (d : Option Delta) (l : List (Option Delta)) :
    sumO (d :: l) = addO d (sumO l) := by
  show (d :: l).foldl addO (some zeroD) = addO d (sumO l)
  show l.foldl addO (addO (some zeroD) d) = addO d (sumO l)
  rw [foldl_addO, zero_addO]

theorem specCumsumCorrectionGo_length (l : List (Option Delta)) :
    ∀ acc, (specCumsumCorrectionGo acc l).length = l.length := by
  induction l with
  | nil => intro acc; rfl
  | cons d rest ih => intro acc; simp [specCumsumCorrectionGo, ih]

theorem specCumsumCorrectionGo_get (l : List (Option Delta)) :
    ∀ (acc : Option Delta) (i : ℕ) (h : i < (specCumsumCorrectionGo acc l).length),
      (specCumsumCorrectionGo acc l).get ⟨i, h⟩ = addO acc (sumO (l.take (i + 1))) := by
  induction l with
  | nil => intro acc i h; simp [specCumsumCorrectionGo] at h
  | cons d rest ih =>
    intro acc i h
    cases i with
    | zero => simp [specCumsumCorrectionGo, sumO_cons, sumO, addO_zero, zero_addO]
    | succ j =>
      have hj : j < (specCumsumCorrectionGo (addO acc d) rest).length := by
        simpa [specCumsumCorrectionGo] using h
      show (specCumsumCorrectionGo (addO acc d) rest).get ⟨j, hj⟩ = _
      rw [ih (addO acc d) j hj]
      rw [List.take_succ_cons, sumO_cons, addO_assoc]

theorem specCumsumCorrection_get (l : List (Option Delta)) (i : ℕ)
    (h : i < (specCumsumCorrection l).length) :
    (specCumsumCorrection l).get ⟨i, h⟩ = sumO (l.take (i + 1)) := by
  have hh : i < (specCumsumCorrectionGo (some zeroD) l).length := h
  have := specCumsumCorrectionGo_get l (some zeroD) i hh
  rw [zero_addO] at this
  exact this

theorem sumD_append (l1 l2 : List Delta) :
    sumD (l1 ++ l2) = addD (sumD l1) (sumD l2) := by
  show (l1 ++ l2).foldl addD zeroD = _
  rw [List.foldl_append, foldl_addD]
  rfl

theorem sumD_replicate_zero : ∀ n : ℕ, sumD (List.replicate n zeroD) = zeroD := by
  intro n
  induction n with
  | zero => rfl
  | succ m ih => rw [List.replicate_succ, sumD_cons, ih, addD_zero]

theorem cumsumGo_replicate_zero_append (b : Delta) :
    ∀ (n : ℕ) (acc : Delta),
      cumsumGo acc (List.replicate n zeroD ++ [b]) =
        List.replicate n acc ++ [addD acc b] := by
  intro n
  induction n with
  | zero => intro acc; rfl
  | succ m ih =>
    intro acc
    rw [List.replicate_succ, List.cons_append]
    show addD acc zeroD :: cumsumGo (addD acc zeroD) (List.replicate m zeroD ++ [b]) = _
    rw [addD_zero, ih acc, List.replicate_succ, List.cons_append]

theorem take_two (l : List α) (h0 : 0 < l.length) (h1 : 1 < l.length) :
    l.take 2 = [l.get ⟨0, h0⟩, l.get ⟨1, h1⟩] := by
  match l with
  | [] => simp at h0
  | [x] => simp at h1
  | x :: y :: rest => rfl

theorem sumD_const (c : Delta) :
    ∀ (l : List Delta), (∀ x ∈ l, x = c) →
      sumD l = ⟨l.length * c.dx, l.length * c.dy, l.length * c.da⟩ := by
  intro l
  induction l with
  | nil => intro _; simp [sumD, zeroD]
  | cons d rest ih =>
    intro hmem
    have hd : d = c := hmem d (List.mem_cons_self d rest)
    have hr := ih fun x hx => hmem x (List.mem_cons_of_mem d hx)
    rw [sumD_cons, hd, hr]
    simp only [addD, List.length_cons]
    simp only [Delta.mk.injEq]
    refine ⟨?_, ?_, ?_⟩ <;> push_cast <;> ring

theorem divD_mul_self (c : Delta) (n : ℕ) (hn : 0 < n) :
    divD ⟨n * c.dx, n * c.dy, n * c.da⟩ n = c := by
  have hne : (n : ℚ) ≠ 0 := Nat.cast_ne_zero.mpr hn.ne'
  obtain ⟨cx, cy, cz⟩ := c
  simp only [divD, Delta.mk.injEq]
  refine ⟨?_, ?_, ?_⟩ <;> field_simp

/-- Mean of a constant list is the constant. -/
theorem meanD_const (c : Delta) (l : List Delta) (h0 : 0 < l.length)
    (hc : ∀ x ∈ l, x = c) : meanD l = c := by
  rw [meanD, sumD_const c l hc]
  exact divD_mul_self c l.length h0

/-! ### The two loops: data independent of the progress flag -/

theorem phase1_foldl (sp : Bool) (rs : List (Option Delta)) :
    ∀ (acc : List Delta) (n : ℕ),
      (rs.foldl (phase1Step sp) (acc, n)).1 = acc ++ rs.map estDelta := by
  induction rs with
  | nil => intro acc n; simp
  | cons r rest ih =>
    intro acc n
    show (rest.foldl (phase1Step sp) (phase1Step sp (acc, n) r)).1 = _
    rw [show phase1Step sp (acc, n) r =
      (acc ++ [estDelta r], if sp then n + 1 else n) from rfl]
    rw [ih (acc ++ [estDelta r]) (if sp then n + 1 else n)]
    simp

theorem phase1_fst (rs : List (Option Delta)) (sp : Bool) :
    (phase1 rs sp).1 = rs.map estDelta := by
  have := phase1_foldl sp rs [] 0
  simpa [phase1] using this

theorem phase2_foldl {Frame : Type} (warp : Frame → Option Delta → Frame) (sp : Bool)
    (ps : List (Frame × Option Delta)) :
    ∀ (acc : List Frame) (n : ℕ),
      (ps.foldl (phase2Step warp sp) (acc, n)).1 = acc ++ ps.map fun p => warp p.1 p.2 := by
  induction ps with
  | nil => intro acc n; simp
  | cons p rest ih =>
    intro acc n
    show (rest.foldl (phase2Step warp sp) (phase2Step warp sp (acc, n) p)).1 = _
    rw [show phase2Step warp sp (acc, n) p =
      (acc ++ [warp p.1 p.2], if sp then n + 1 else n) from rfl]
    rw [ih (acc ++ [warp p.1 p.2]) (if sp then n + 1 else n)]
    simp

theorem phase2_fst {Frame : Type} (warp : Frame → Option Delta → Frame)
    (frames : List Frame) (ts : List (Option Delta)) (sp : Bool) :
    (phase2 warp frames ts sp).1 = (frames.zip ts).map fun p => warp p.1 p.2 := by
  have := phase2_foldl warp sp (frames.zip ts) [] 0
  simpa [phase2] using this

/-- Row `i` of `self.transforms` (line 147): the motion delta plus the
residual between smoothed and raw trajectory, with NaN propagation. -/
theorem transformsOf_get (ds : List Delta) (i : ℕ)
    (h : i < (transformsOf ds).length) (h1 : i < ds.length)
    (h2 : i < (smoothedOf ds).length) (hc : i < (cumsum ds).length) :
    (transformsOf ds).get ⟨i, h⟩ =
      ((smoothedOf ds).get ⟨i, h2⟩).map fun s =>
        addD (ds.get ⟨i, h1⟩) (subD s ((cumsum ds).get ⟨i, hc⟩)) := by
  simp [transformsOf, List.getElem_zipWith, List.getElem_zip]


/-! ### Claims -/

/-- Claim C1: for every sequence of motion deltas, the trajectory builder
(`np.cumsum`, source line 137) returns a sequence of the same length whose
entry `i` is the elementwise sum of deltas `0..i` inclusive, in input order;
the empty input yields the empty trajectory. -/
theorem trajectory_is_running_sum (ds : List Delta) :
    (cumsum ds).length = ds.length ∧
    (∀ (i : ℕ) (h : i < (cumsum ds).length),
      (cumsum ds).get ⟨i, h⟩ = sumD (ds.take (i + 1))) ∧
    cumsum [] = ([] : List Delta) :=
  ⟨cumsum_length ds, fun i h => cumsum_get ds i h, rfl⟩

/-- Witness for C1 at a concrete two-delta input. -/
theorem trajectory_is_running_sum_witness :
    (cumsum dsA).get ⟨1, by decide⟩ = sumD (dsA.take 2) :=
  (trajectory_is_running_sum dsA).2.1 1 (by decide)

/-- Claim C2: for a trajectory at least as long as the window, every index
before `window - 1` holds the smoothed value of index `window - 1` (backward
fill), and every index from `window - 1` on holds the arithmetic mean of the
trailing window of `window` samples. -/
theorem smoothing_backfill_and_window_mean (w : ℕ) (t : List Delta)
    (hw : 0 < w) (hlen : w ≤ t.length) :
    (∀ (i : ℕ) (h : i < (smoothTraj w t).length)
        (hw1 : w - 1 < (smoothTraj w t).length), i < w - 1 →
        (smoothTraj w t).get ⟨i, h⟩ = (smoothTraj w t).get ⟨w - 1, hw1⟩) ∧
    (∀ (i : ℕ) (h : i < (smoothTraj w t).length), w - 1 ≤ i →
        (smoothTraj w t).get ⟨i, h⟩ =
          some (divD (sumD ((t.take (i + 1)).drop (i + 1 - w))) w)) := by
  constructor
  · intro i h hw1 hi
    exact smoothTraj_get_early w t hlen i h hw1 hi
  · intro i h hi
    have hwi : w ≤ i + 1 := by omega
    rw [smoothTraj_get_full w t i h hwi]
    have hit : i < t.length := by rwa [smoothTraj_length] at h
    rw [meanD, window_slice_length w t i hit hwi]

/-- Witness for C2 with window 2 over a three-entry trajectory. -/
theorem smoothing_backfill_and_window_mean_witness :
    (smoothTraj 2 tB).get ⟨0, by decide⟩ = (smoothTraj 2 tB).get ⟨1, by decide⟩ ∧
    (smoothTraj 2 tB).get ⟨2, by decide⟩ =
      some (divD (sumD ((tB.take 3).drop 1)) 2) :=
  ⟨(smoothing_backfill_and_window_mean 2 tB (by decide) (by decide)).1 0
      (by decide) (by decide) (by decide),
   (smoothing_backfill_and_window_mean 2 tB (by decide) (by decide)).2 2
      (by decide) (by decide)⟩

/-- Claim C3: every row of the stored correction sequence equals
`MotionDelta[i] + SmoothedTrajectory[i] - Trajectory[i]` elementwise (with an
undefined smoothed entry yielding an undefined row), emitted in input order
with the same length as the input. -/
theorem correction_rows_formula (ds : List Delta) :
    (transformsOf ds).length = ds.length ∧
    ∀ (i : ℕ) (h : i < (transformsOf ds).length) (h1 : i < ds.length)
      (h2 : i < (smoothedOf ds).length),
      (transformsOf ds).get ⟨i, h⟩ =
        ((smoothedOf ds).get ⟨i, h2⟩).map fun s =>
          addD (ds.get ⟨i, h1⟩) (subD s (sumD (ds.take (i + 1)))) := by
  refine ⟨transformsOf_length ds, ?_⟩
  intro i h h1 h2
  have hc : i < (cumsum ds).length := by rw [cumsum_length]; exact h1
  rw [transformsOf_get ds i h h1 h2 hc, cumsum_get]

/-- Witness for C3 at a concrete one-delta input. -/
theorem correction_rows_formula_witness :
    (transformsOf dsOne).get ⟨0, by decide⟩ =
      ((smoothedOf dsOne).get ⟨0, by decide⟩).map fun s =>
        addD (dsOne.get ⟨0, by decide⟩) (subD s (sumD (dsOne.take 1))) :=
  (correction_rows_formula dsOne).2 0 (by decide) (by decide) (by decide)

/-- Claim C4 (amended): per-frame — not cumulative — application of the
correction reproduces the smoothed trajectory exactly: for every defined row,
`Trajectory[i] + (CorrectionDelta[i] - MotionDelta[i]) = SmoothedTrajectory[i]`,
and an undefined smoothed entry corresponds to an undefined row. -/
theorem correction_applied_per_frame (ds : List Delta) (i : ℕ)
    (h1 : i < ds.length) (h2 : i < (smoothedOf ds).length)
    (h3 : i < (transformsOf ds).length) :
    ((transformsOf ds).get ⟨i, h3⟩).map (fun c =>
        addD (sumD (ds.take (i + 1))) (subD c (ds.get ⟨i, h1⟩))) =
      (smoothedOf ds).get ⟨i, h2⟩ := by
  have hc : i < (cumsum ds).length := by rw [cumsum_length]; exact h1
  rw [transformsOf_get ds i h3 h1 h2 hc, cumsum_get]
  cases hs : (smoothedOf ds).get ⟨i, h2⟩ with
  | none => rfl
  | some s =>
    obtain ⟨sx, sy, sz⟩ := s
    simp only [Option.map_some', Option.some.injEq, addD, subD, Delta.mk.injEq]
    refine ⟨by ring, by ring, by ring⟩

/-- Witness for the amended C4 at a concrete one-delta input. -/
theorem correction_applied_per_frame_witness :
    ((transformsOf dsOne).get ⟨0, by decide⟩).map (fun c =>
        addD (sumD (dsOne.take 1)) (subD c (dsOne.get ⟨0, by decide⟩))) =
      (smoothedOf dsOne).get ⟨0, by decide⟩ :=
  correction_applied_per_frame dsOne 0 (by decide) (by decide) (by decide)

/-- Counterexample to C4 as stated: for the 30-delta input `dsCex`, the
cumulative sum of the correction sequence already differs from the smoothed
trajectory at index 1 (the value is `(2,0,0)` whereas the smoothed entry is
`(1,0,0)` — an error of 1, far beyond any 1e-9 tolerance). -/
theorem cumsum_correction_counterexample :
    (specCumsumCorrection (transformsOf dsCex)).get ⟨1, by decide⟩ ≠
      (smoothedOf dsCex).get ⟨1, by decide⟩ := by
  have hdsl : dsCex.length = 30 := by decide
  have htl : (cumsum dsCex).length = 30 := by rw [cumsum_length, hdsl]
  have ht : cumsum dsCex = List.replicate 29 zeroD ++ [bCex] := by
    show cumsumGo zeroD (List.replicate 29 zeroD ++ [bCex]) = _
    rw [cumsumGo_replicate_zero_append bCex 29 zeroD, zero_addD]
  have hsum : sumD (cumsum dsCex) = bCex := by
    rw [ht, sumD_append, sumD_replicate_zero 29, zero_addD, sumD_cons]
    rw [show sumD [] = zeroD from rfl, addD_zero]
  have hm : meanD (cumsum dsCex) = ⟨1, 0, 0⟩ := by
    rw [meanD, hsum, htl]
    norm_num [divD, bCex]
  have hs29 : 29 < (smoothedOf dsCex).length := by
    rw [smoothedOf_length, hdsl]; omega
  have h29 : (smoothedOf dsCex).get ⟨29, hs29⟩ = some ⟨1, 0, 0⟩ := by
    show (smoothTraj 30 (cumsum dsCex)).get ⟨29, hs29⟩ = some ⟨1, 0, 0⟩
    rw [smoothTraj_get_full 30 (cumsum dsCex) 29 hs29 (by omega)]
    rw [show (29 : ℕ) + 1 = 30 from rfl]
    rw [show (30 : ℕ) - 30 = 0 from rfl]
    rw [show (cumsum dsCex).take 30 = cumsum dsCex from by
      rw [← htl]; exact List.take_length (cumsum dsCex)]
    rw [List.drop_zero, hm]
  have hsfull : ∀ (i : ℕ) (h : i < (smoothedOf dsCex).length),
      (smoothedOf dsCex).get ⟨i, h⟩ = some ⟨1, 0, 0⟩ := by
    intro i h
    have hi30 : i < 30 := by rwa [smoothedOf_length, hdsl] at h
    rcases Nat.lt_or_ge i 29 with hlt | hge
    · show (smoothTraj 30 (cumsum dsCex)).get ⟨i, h⟩ = some ⟨1, 0, 0⟩
      rw [smoothTraj_get_early 30 (cumsum dsCex) (by omega) i h hs29 (by omega)]
      exact h29
    · have hieq : i = 29 := by omega
      subst hieq
      exact h29
  have hts : (transformsOf dsCex).length = 30 := by rw [transformsOf_length, hdsl]
  have ht0 : (0 : ℕ) < (transformsOf dsCex).length := by omega
  have ht1 : (1 : ℕ) < (transformsOf dsCex).length := by omega
  have htr : ∀ (i : ℕ) (h : i < (transformsOf dsCex).length) (h1 : i < dsCex.length)
      (h2 : i < (smoothedOf dsCex).length) (hc : i < (cumsum dsCex).length),
      dsCex.get ⟨i, h1⟩ = zeroD → (cumsum dsCex).get ⟨i, hc⟩ = zeroD →
      (transformsOf dsCex).get ⟨i, h⟩ = some ⟨1, 0, 0⟩ := by
    intro i h h1 h2 hc hd hcz
    rw [transformsOf_get dsCex i h h1 h2 hc, hsfull i h2, hd, hcz]
    simp only [Option.map_some', Option.some.injEq]
    rw [subD_zero, zero_addD]
  have htr0 : (transformsOf dsCex).get ⟨0, ht0⟩ = some ⟨1, 0, 0⟩ :=
    htr 0 ht0 (by omega) (by rw [smoothedOf_length, hdsl]; omega) (by omega) rfl
      (by rw [List.get_of_eq ht]; rfl)
  have htr1 : (transformsOf dsCex).get ⟨1, ht1⟩ = some ⟨1, 0, 0⟩ :=
    htr 1 ht1 (by omega) (by rw [smoothedOf_length, hdsl]; omega) (by omega) rfl
      (by rw [List.get_of_eq ht]; rfl)
  have hsp1 : (1 : ℕ) < (specCumsumCorrection (transformsOf dsCex)).length := by
    rw [show (specCumsumCorrection (transformsOf dsCex)).length =
      (transformsOf dsCex).length from
        specCumsumCorrectionGo_length (transformsOf dsCex) (some zeroD)]
    omega
  have hLHS : (specCumsumCorrection (transformsOf dsCex)).get ⟨1, hsp1⟩ =
      some ⟨2, 0, 0⟩ := by
    rw [specCumsumCorrection_get (transformsOf dsCex) 1 hsp1]
    rw [take_two (transformsOf dsCex) ht0 ht1, htr0, htr1]
    rw [sumO_cons, sumO_cons]
    rw [show sumO ([] : List (Option Delta)) = some zeroD from rfl, addO_zero]
    rw [show addO (some (⟨1, 0, 0⟩ : Delta)) (some ⟨1, 0, 0⟩) =
      some (addD ⟨1, 0, 0⟩ ⟨1, 0, 0⟩) from rfl]
    norm_num [addD]
  intro heq
  rw [hLHS, hsfull 1 (by rw [smoothedOf_length, hdsl]; omega)] at heq
  simp only [Option.some.injEq, Delta.mk.injEq] at heq
  norm_num at heq

/-- Claim C5 (amended): for every non-empty input shorter than the window of
30, the rolling mean never reaches a full window, the backward fill finds no
defined value to propagate, and so every smoothed entry and every correction
row is undefined (NaN) — undefined rows do reach the stored correction
sequence. -/
theorem short_input_all_undefined (ds : List Delta) (_hne : ds ≠ [])
    (hlen : ds.length < 30) :
    (∀ (i : ℕ) (h : i < (smoothedOf ds).length), (smoothedOf ds).get ⟨i, h⟩ = none) ∧
    (∀ (i : ℕ) (h : i < (transformsOf ds).length), (transformsOf ds).get ⟨i, h⟩ = none) := by
  have hcl : (cumsum ds).length = ds.length := cumsum_length ds
  have hshort : (cumsum ds).length < 30 := by omega
  constructor
  · intro i h
    exact smoothTraj_get_none 30 (cumsum ds) hshort i h
  · intro i h
    have h1 : i < ds.length := by rwa [transformsOf_length] at h
    have h2 : i < (smoothedOf ds).length := by rw [smoothedOf_length]; exact h1
    have hc : i < (cumsum ds).length := by omega
    rw [transformsOf_get ds i h h1 h2 hc]
    rw [show (smoothedOf ds).get ⟨i, h2⟩ = none from
      smoothTraj_get_none 30 (cumsum ds) hshort i h2]
    rfl

/-- Counterexample to C5 as stated: for the single-delta input the smoothed
trajectory and the correction sequence consist of one undefined entry each;
smoothing does not produce a defined value at index 0. -/
theorem short_input_counterexample :
    smoothedOf dsOne = [none] ∧ transformsOf dsOne = [none] := by decide

/-- Witness for the amended C5 at the single-delta input. -/
theorem short_input_all_undefined_witness :
    (smoothedOf dsOne).get ⟨0, by decide⟩ = none ∧
    (transformsOf dsOne).get ⟨0, by decide⟩ = none :=
  ⟨(short_input_all_undefined dsOne (by decide) (by decide)).1 0 (by decide),
   (short_input_all_undefined dsOne (by decide) (by decide)).2 0 (by decide)⟩

/-- Claim C6: whenever the motion estimator yields no transform (`none`), the
loop records the zero delta for that transition (source lines 117-125), and
the whole pipeline still produces sequences of the full input length — an
estimation gap is never fatal. -/
theorem estimation_gap_zero_and_continues (rs : List (Option Delta)) (sp : Bool) :
    (∀ (i : ℕ) (h : i < rs.length) (h2 : i < (phase1 rs sp).1.length),
      rs.get ⟨i, h⟩ = none → (phase1 rs sp).1.get ⟨i, h2⟩ = zeroD) ∧
    (phase1 rs sp).1.length = rs.length ∧
    (cumsum (phase1 rs sp).1).length = rs.length ∧
    (smoothedOf (phase1 rs sp).1).length = rs.length ∧
    (transformsOf (phase1 rs sp).1).length = rs.length := by
  have hmap := phase1_fst rs sp
  have hlen : (phase1 rs sp).1.length = rs.length := by rw [hmap, List.length_map]
  refine ⟨?_, hlen, ?_, ?_, ?_⟩
  · intro i h h2 hnone
    rw [List.get_of_eq hmap ⟨i, h2⟩]
    simp only [List.get_eq_getElem, List.getElem_map, Fin.coe_cast]
    simp only [List.get_eq_getElem] at hnone
    simp [hnone, estDelta]
  · rw [cumsum_length, hlen]
  · rw [smoothedOf_length, hlen]
  · rw [transformsOf_length, hlen]

/-- Witness for C6: with a gap at index 1 of three outcomes, the recorded
delta at index 1 is the zero delta. -/
theorem estimation_gap_witness :
    (phase1 rsGap true).1.get ⟨1, by decide⟩ = zeroD :=
  (estimation_gap_zero_and_continues rsGap true).1 1 (by decide) (by decide)
    (by decide)

/-- Claim C8 (amended): smoothing a constant trajectory at least as long as
the window returns it unchanged at every index (the mean of a window of
identical values is that value, and the backward fill propagates it). -/
theorem smoothing_constant_unchanged (w : ℕ) (t : List Delta) (c : Delta)
    (hw : 0 < w) (hlen : w ≤ t.length) (hc : ∀ x ∈ t, x = c) :
    ∀ (i : ℕ) (h : i < (smoothTraj w t).length) (h2 : i < t.length),
      (smoothTraj w t).get ⟨i, h⟩ = some (t.get ⟨i, h2⟩) := by
  have hmean : ∀ (j : ℕ) (hj : j < t.length), w ≤ j + 1 →
      meanD ((t.take (j + 1)).drop (j + 1 - w)) = c := by
    intro j hj hwj
    refine meanD_const c _ ?_ ?_
    · rw [window_slice_length w t j hj hwj]; omega
    · intro x hx
      exact hc x (List.mem_of_mem_take (List.mem_of_mem_drop hx))
  intro i h h2
  rw [show t.get ⟨i, h2⟩ = c from hc _ (List.get_mem t i h2)]
  rcases Nat.lt_or_ge i (w - 1) with hlt | hge
  · have hw1 : w - 1 < (smoothTraj w t).length := by rw [smoothTraj_length]; omega
    rw [smoothTraj_get_early w t hlen i h hw1 hlt]
    have hw1t : w - 1 < t.length := by omega
    rw [smoothTraj_get_full w t (w - 1) hw1 (by omega)]
    rw [hmean (w - 1) hw1t (by omega)]
  · rw [smoothTraj_get_full w t i h (by omega)]
    rw [hmean i h2 (by omega)]

/-- Counterexample to C8 as stated: the constant one-entry trajectory is
shorter than the hardcoded window of 30, so its smoothed entry is undefined
rather than unchanged. -/
theorem smoothing_constant_counterexample :
    (smoothTraj 30 tConst1).get ⟨0, by decide⟩ ≠ some (tConst1.get ⟨0, by decide⟩) := by
  decide

/-- Witness for the amended C8 with window 2 over a constant two-entry
trajectory. -/
theorem smoothing_constant_unchanged_witness :
    (smoothTraj 2 tConst2).get ⟨0, by decide⟩ = some (tConst2.get ⟨0, by decide⟩) :=
  smoothing_constant_unchanged 2 tConst2 ⟨2, 3, 4⟩ (by decide) (by decide)
    (fun _ hx => List.eq_of_mem_replicate hx) 0 (by decide) (by decide)

/-- Claim C9 (amended): after `stabilize` completes, the intermediate delta
list, trajectory and smoothed trajectory are locals that are discarded, and
the resulting session state is independent of the pre-call state; but the
derived correction sequence persists on the session as the `transforms`
attribute (it is never cleared). -/
theorem session_state_after_stabilize (st st2 : VidStabSession)
    (rs : List (Option Delta)) (sp : Bool) :
    stabilizeSession st rs sp = stabilizeSession st2 rs sp ∧
    (stabilizeSession st rs sp).transforms = some (transformsOf (phase1 rs sp).1) ∧
    (stabilizeSession st rs sp).transforms ≠ none :=
  ⟨rfl, rfl, fun hcontra => Option.noConfusion hcontra⟩

/-- Counterexample to C9 as stated: after one `stabilize` call on a fresh
session, the correction sequence is still present on the session rather than
discarded. -/
theorem session_transforms_persist :
    (stabilizeSession VidStab_init [some ⟨1, 0, 0⟩] true).transforms = some [none] := by
  decide

/-- Claim C10: two runs that differ only in the progress flag store the same
transforms and write the same output frames; progress reporting affects no
computed or emitted data. -/
theorem show_progress_noninterference {Frame : Type}
    (warp : Frame → Option Delta → Frame) (frames : List Frame)
    (rs : List (Option Delta)) (sp sp2 : Bool) :
    (stabilizeRun warp frames rs sp).transforms =
      (stabilizeRun warp frames rs sp2).transforms ∧
    (stabilizeRun warp frames rs sp).outFrames =
      (stabilizeRun warp frames rs sp2).outFrames := by
  have h1 : (phase1 rs sp).1 = (phase1 rs sp2).1 := by
    rw [phase1_fst, phase1_fst]
  constructor
  · show transformsOf (phase1 rs sp).1 = transformsOf (phase1 rs sp2).1
    rw [h1]
  · show (phase2 warp frames (transformsOf (phase1 rs sp).1) sp).1 =
      (phase2 warp frames (transformsOf (phase1 rs sp2).1) sp2).1
    rw [phase2_fst, phase2_fst, h1]

end VidStab
